import Mathlib

/-!
# Thicket tutorial: verification of the hierarchical performance-data model

The repository under verification consists of tutorial notebooks that drive an
external performance-analysis toolkit (call-tree joins, statistical
aggregation, query matching, curve fitting).  The toolkit's implementation is
not part of the repository, so the data model and the operations are modelled
here from the repository's own design description and from the notebooks'
documented contracts, and the stated properties are settled against that
model.
-/

namespace ThicketModel

/-- A performance-table row: keyed by (tree-node, run-identifier), holding a
mapping from metric name to numeric value.  Modelled from the spec: the
Performance Table is "multi-indexed ... keyed by (tree-node, run-identifier),
storing per-run metric values"; the reader implementation
(`Thicket.from_caliperreader`) is not in the repository. -/
structure PerfRow where
  node : Nat
  run : Nat
  metrics : List (String × Rat)
deriving DecidableEq

/-- One input source for vertical composition: the performance rows obtained
from one set of profile files.  Modelled from the spec: the Composer takes
"N (graph, performance table, metadata table) triples"; only the performance
table matters for row-count and run-identity properties. -/
structure Source where
  rows : List PerfRow
deriving DecidableEq

/-- The run indices present in a source. -/
def Source.runs (s : Source) : List Nat :=
  s.rows.map (fun r => r.run)

/-- Whether two sources have disjoint run-index sets. -/
def disjointRuns (a b : Source) : Bool :=
  a.runs.all (fun r => !(b.runs.contains r))

/-- Whether all sources in a list have pairwise disjoint run-index sets. -/
def pairwiseDisjoint : List Source → Bool
  | [] => true
  | s :: rest => rest.all (fun t => disjointRuns s t) && pairwiseDisjoint rest

/-- Vertical composition (stacking along the run axis).  Modelled from the
spec: with "no extra parameters — vertical concatenation assuming disjoint run
sets and a shared node namespace"; it "raises a data-integrity error when
attempting vertical concatenation over overlapping run indices", and "runs are
never deduplicated or dropped".  The reader/concatenation implementation
(`Thicket.from_caliperreader` over a combined file list) is not in the
repository. -/
def verticalCompose (srcs : List Source) : Option (List PerfRow) :=
  if pairwiseDisjoint srcs then some (srcs.flatMap (fun s => s.rows)) else none

/-- Number of performance rows carrying a given run index. -/
def countRun (r : Nat) (rows : List PerfRow) : Nat :=
  (rows.filter (fun x => x.run == r)).length

/-- One input source for horizontal (columnar) composition: a caller-supplied
label together with the source's metric-column names.  Modelled from the spec:
the Composer takes "a list of per-source labels and a new categorical column
name"; the join implementation (`Thicket.columnar_join`) is not in the
repository. -/
structure CSource where
  label : String
  cols : List String
deriving DecidableEq

/-- Horizontal ("columnar") join: the metric columns of the result, each a
(label, original-column) pair — the label-prefixed disambiguation of the
spec: "performance-table columns disambiguated by prefixing each source's
label".  Modelled from the spec; `Thicket.columnar_join` itself is not in the
repository.  The new categorical column name is recorded unchanged. -/
def columnarJoin (srcs : List CSource) (columnName : String) :
    List (String × String) × String :=
  (srcs.flatMap (fun s => s.cols.map (fun c => (s.label, c))), columnName)

end ThicketModel

namespace ThicketModel

/-- C1 helper: length of a flatMap is the sum of lengths. -/
theorem length_flatMap_rows (srcs : List Source) :
    (srcs.flatMap (fun s => s.rows)).length
      = (srcs.map (fun s => s.rows.length)).sum := by
  induction srcs with
  | nil => rfl
  | cons s rest ih =>
      simp [List.flatMap_cons, List.length_append, ih]

/-- C1 helper: countRun distributes over flatMap. -/
theorem countRun_flatMap (r : Nat) (srcs : List Source) :
    countRun r (srcs.flatMap (fun s => s.rows))
      = (srcs.map (fun s => countRun r s.rows)).sum := by
  induction srcs with
  | nil => rfl
  | cons s rest ih =>
      simp only [List.flatMap_cons, countRun, List.filter_append,
        List.length_append, List.map_cons, List.sum_cons]
      exact congrArg (_ + ·) ih

end ThicketModel

namespace ThicketModel

/-- C1: for input sources whose run indices are pairwise disjoint, vertical
composition succeeds and produces a performance table whose total row count is
the sum of the input row counts, and every run index keeps exactly the rows it
had in its source (no two distinct run indices are merged into one run). -/
theorem vertical_compose_preserves_rows (srcs : List Source)
    (h : pairwiseDisjoint srcs = true) :
    ∃ t, verticalCompose srcs = some t ∧
      t.length = (srcs.map (fun s => s.rows.length)).sum ∧
      ∀ r : Nat, countRun r t = (srcs.map (fun s => countRun r s.rows)).sum := by
  refine ⟨srcs.flatMap (fun s => s.rows), ?_, ?_, ?_⟩
  · simp [verticalCompose, h]
  · exact length_flatMap_rows srcs
  · intro r
    exact countRun_flatMap r srcs

theorem vertical_compose_preserves_rows_witness :
    pairwiseDisjoint
        [⟨[⟨0, 1, [("t", 10)]⟩, ⟨1, 1, [("t", 11)]⟩]⟩,
         ⟨[⟨0, 2, [("t", 20)]⟩]⟩] = true ∧
    ∃ t, verticalCompose
        [⟨[⟨0, 1, [("t", 10)]⟩, ⟨1, 1, [("t", 11)]⟩]⟩,
         ⟨[⟨0, 2, [("t", 20)]⟩]⟩] = some t ∧
      t.length = ([⟨[⟨0, 1, [("t", 10)]⟩, ⟨1, 1, [("t", 11)]⟩]⟩,
         (⟨[⟨0, 2, [("t", 20)]⟩]⟩ : Source)].map (fun s => s.rows.length)).sum ∧
      ∀ r : Nat, countRun r t
        = ([⟨[⟨0, 1, [("t", 10)]⟩, ⟨1, 1, [("t", 11)]⟩]⟩,
         (⟨[⟨0, 2, [("t", 20)]⟩]⟩ : Source)].map (fun s => countRun r s.rows)).sum :=
  ⟨by decide, vertical_compose_preserves_rows _ (by decide)⟩

/-- C2 helper: with pairwise-distinct labels, the source index is determined
by the label. -/
theorem label_inj (srcs : List CSource)
    (hl : (srcs.map (fun s => s.label)).Nodup) (i j : Fin srcs.length)
    (h : (srcs.get i).label = (srcs.get j).label) : i = j := by
  have hi : (srcs.map (fun s => s.label)).get ⟨i, by simp⟩
      = (srcs.get i).label := by
    simp
  have hj : (srcs.map (fun s => s.label)).get ⟨j, by simp⟩
      = (srcs.get j).label := by
    simp
  have := (List.Nodup.get_inj_iff hl
    (i := ⟨i, by simp⟩) (j := ⟨j, by simp⟩)).mp
    (by rw [hi, hj, h])
  exact Fin.ext (Fin.mk.inj this)

/-- C2: in a horizontal (columnar) join with pairwise-distinct per-source
labels, every metric column of the result is traceable to exactly one
(label, original-column) pair, and same-named columns from different sources
remain separate because their label prefixes differ. -/
theorem columnar_join_traceable (srcs : List CSource) (columnName : String)
    (hl : (srcs.map (fun s => s.label)).Nodup) :
    (∀ c ∈ (columnarJoin srcs columnName).1,
      ∃! i : Fin srcs.length,
        (srcs.get i).label = c.1 ∧ c.2 ∈ (srcs.get i).cols) ∧
    (∀ i j : Fin srcs.length, i ≠ j → ∀ cn : String,
      ((srcs.get i).label, cn) ≠ ((srcs.get j).label, cn)) := by
  constructor
  · intro c hc
    simp only [columnarJoin, List.mem_flatMap] at hc
    obtain ⟨s, hs, hcs⟩ := hc
    obtain ⟨i, hi⟩ := List.mem_iff_get.mp hs
    simp only [List.mem_map] at hcs
    obtain ⟨cn, hcn, hceq⟩ := hcs
    refine ⟨i, ⟨?_, ?_⟩, ?_⟩
    · rw [hi, ← hceq]
    · rw [hi, ← hceq]
      exact hcn
    · intro j hj
      exact (label_inj srcs hl j i (by rw [hi, hj.1, ← hceq])).symm ▸ rfl
  · intro i j hij cn hcontra
    exact hij (label_inj srcs hl i j (congrArg Prod.fst hcontra))

/-- Concrete columnar-join inputs (two block-size thickets sharing a metric
column name, as in the tutorial's columnar_join cell). -/
def cjExample : List CSource :=
  [⟨"Block 128", ["time"]⟩, ⟨"Block 256", ["time"]⟩]

theorem columnar_join_traceable_witness :
    (cjExample.map (fun s => s.label)).Nodup ∧
    ((∀ c ∈ (columnarJoin cjExample "ProblemSizeRunParam").1,
      ∃! i : Fin cjExample.length,
        (cjExample.get i).label = c.1 ∧ c.2 ∈ (cjExample.get i).cols) ∧
    (∀ i j : Fin cjExample.length, i ≠ j → ∀ cn : String,
      ((cjExample.get i).label, cn) ≠ ((cjExample.get j).label, cn))) :=
  ⟨by decide,
   columnar_join_traceable cjExample "ProblemSizeRunParam" (by decide)⟩

end ThicketModel

namespace ThicketModel


/-- A per-node slice of the performance table: one row per run reaching the
node.  Modelled from the spec: Performance Table rows hold "a mapping from
metric name to numeric value" keyed by (Node, Run); the reading code is not in
the repository. -/
structure Row where
  run : Nat
  metrics : List (String × Rat)
deriving DecidableEq

/-- The data of one call-tree node visible to query predicates: its identity,
its name, and its associated performance rows.  Modelled from the spec: "a
relation step applies the supplied predicate to the candidate node's
aggregated row data (across all runs reaching that node)". -/
structure NodeView where
  nid : Nat
  name : String
  rows : List Row
deriving DecidableEq

/-- The call tree.  Modelled from the spec: a Node "identified by a
path-sensitive key", here an explicit node identifier `nid`, with a name and
the performance rows of the runs reaching the node; the graph implementation
is not in the repository. -/
inductive CTree where
  | node (nid : Nat) (name : String) (rows : List Row) (children : List CTree)

def CTree.view : CTree → NodeView
  | .node n nm rs _ => ⟨n, nm, rs⟩

/-- All nodes (as subtrees) of a call tree. -/
def subtrees : CTree → List CTree
  | .node n nm rs cs =>
      .node n nm rs cs :: cs.attach.flatMap (fun c => subtrees c.1)
termination_by t => sizeOf t
decreasing_by
  simp_wf
  have := List.sizeOf_lt_of_mem c.2
  omega

theorem subtrees_node (n : Nat) (nm : String) (rs : List Row) (cs : List CTree) :
    subtrees (.node n nm rs cs)
      = .node n nm rs cs :: cs.flatMap (fun c => subtrees c) := by
  rw [subtrees]
  simp

/-- All downward chains (contiguous parent-to-child paths) starting at the
root of the given subtree, listed as sequences of node data. -/
def chainsFrom : CTree → List (List NodeView)
  | .node n nm rs cs =>
      [⟨n, nm, rs⟩] :: (cs.attach.flatMap (fun c => chainsFrom c.1)).map
        (fun ch => ⟨n, nm, rs⟩ :: ch)
termination_by t => sizeOf t
decreasing_by
  simp_wf
  have := List.sizeOf_lt_of_mem c.2
  omega

/-- Prune a call tree to the nodes selected by `keep`.  Modelled from the
spec: "unmatched subtrees are pruned, but the tree structure among retained
nodes is kept intact (ancestors of a matched node are retained even if they
fail the predicate, when required to preserve connectivity)". -/
def pruneTo (keep : Nat → Bool) : CTree → Option CTree
  | .node n nm rs cs =>
      let cs' := cs.attach.filterMap (fun c => pruneTo keep c.1)
      if keep n || !cs'.isEmpty then some (.node n nm rs cs') else none
termination_by t => sizeOf t
decreasing_by
  simp_wf
  have := List.sizeOf_lt_of_mem c.2
  omega

theorem pruneTo_node (keep : Nat → Bool) (n : Nat) (nm : String)
    (rs : List Row) (cs : List CTree) :
    pruneTo keep (.node n nm rs cs)
      = (let cs' := cs.filterMap (fun c => pruneTo keep c)
         if keep n || !cs'.isEmpty then some (.node n nm rs cs') else none) := by
  rw [pruneTo]
  have h : cs.attach.filterMap (fun c => pruneTo keep c.1)
      = cs.filterMap (fun c => pruneTo keep c) := by
    simp
  rw [h]

/-- One step of a structural query pattern.  Modelled from the spec: the
Query Engine "accepts a structural pattern (e.g., wildcard/'match any' steps
and relation steps with a row-predicate)"; the row predicate receives the
node's name and one performance row, and a relation step retains only nodes
whose rows all satisfy it (`QueryMatcher.match`/`rel` are not in the
repository). -/
inductive Step where
  | star
  | rel (pred : String → Row → Bool)

/-- Whether a downward chain of nodes matches a pattern: a wildcard step
accepts any number of nodes; a relation step accepts exactly one node, and
only when the row predicate holds on all rows associated with that node. -/
def matchSeq : List Step → List NodeView → Bool
  | [], [] => true
  | [], _ :: _ => false
  | Step.star :: ps, [] => matchSeq ps []
  | Step.star :: ps, v :: vs =>
      matchSeq ps (v :: vs) || matchSeq (Step.star :: ps) vs
  | Step.rel _ :: _, [] => false
  | Step.rel p :: ps, v :: vs =>
      v.rows.all (fun r => p v.name r) && matchSeq ps vs
termination_by ps vs => (ps.length, vs.length)

/-- Structural induction principle for call trees. -/
theorem CTree.ind (P : CTree → Prop)
    (h : ∀ n nm rs cs, (∀ c ∈ cs, P c) → P (CTree.node n nm rs cs)) :
    ∀ t, P t
  | .node n nm rs cs => h n nm rs cs (fun c _ => CTree.ind P h c)
termination_by t => sizeOf t
decreasing_by
  rename_i hc
  have := List.sizeOf_lt_of_mem hc
  simp_wf
  omega


theorem chainsFrom_node (n : Nat) (nm : String) (rs : List Row)
    (cs : List CTree) :
    chainsFrom (.node n nm rs cs)
      = [(⟨n, nm, rs⟩ : NodeView)]
          :: (cs.flatMap (fun c => chainsFrom c)).map
            (fun ch => (⟨n, nm, rs⟩ : NodeView) :: ch) := by
  rw [chainsFrom]
  simp

/-- All downward chains of the tree, starting at any node. -/
def allChains (t : CTree) : List (List NodeView) :=
  (subtrees t).flatMap (fun s => chainsFrom s)

/-- The node identifiers matched by a pattern: all nodes lying on some
downward chain that matches the pattern. -/
def matchedIds (p : List Step) (t : CTree) : List Nat :=
  ((allChains t).filter (fun ch => matchSeq p ch)).flatMap
    (fun ch => ch.map (fun v => v.nid))

/-- Apply a structural query to a call tree.  Modelled from the spec: the
query "returns a new reduced structure containing only matched nodes and
their table rows, preserving parent/child relationships among retained
nodes", keeping ancestors of matched nodes for connectivity; `Thicket.query`
is not in the repository. -/
def queryTree (p : List Step) (t : CTree) : Option CTree :=
  pruneTo (fun n => (matchedIds p t).contains n) t

def CTree.nid : CTree → Nat
  | .node n _ _ _ => n

def CTree.rows : CTree → List Row
  | .node _ _ rs _ => rs

def CTree.cname : CTree → String
  | .node _ nm _ _ => nm

def CTree.children : CTree → List CTree
  | .node _ _ _ cs => cs

theorem mem_subtrees_iff (s t : CTree) :
    s ∈ subtrees t ↔ s = t ∨ ∃ c ∈ t.children, s ∈ subtrees c := by
  cases t with
  | node n nm rs cs =>
      rw [subtrees_node]
      simp [CTree.children, List.mem_flatMap]

theorem self_mem_subtrees (t : CTree) : t ∈ subtrees t := by
  rw [mem_subtrees_iff]
  exact Or.inl rfl

theorem chainsFrom_ne_nil (s : CTree) (ch : List NodeView)
    (h : ch ∈ chainsFrom s) : ch ≠ [] := by
  cases s with
  | node n nm rs cs =>
      rw [chainsFrom_node] at h
      rcases List.mem_cons.mp h with h1 | h1
      · subst h1
        exact List.cons_ne_nil _ _
      · obtain ⟨ch0, _, h2⟩ := List.mem_map.mp h1
        rw [← h2]
        exact List.cons_ne_nil _ _

theorem mem_chainsFrom_iff (s : CTree) (ch : List NodeView) :
    ch ∈ chainsFrom s ↔
      ch = [s.view] ∨
        ∃ c ∈ s.children, ∃ ch0 ∈ chainsFrom c, ch = s.view :: ch0 := by
  cases s with
  | node n nm rs cs =>
      rw [chainsFrom_node]
      simp only [CTree.view, CTree.children, List.mem_cons, List.mem_map,
        List.mem_flatMap]
      constructor
      · rintro (h | ⟨ch0, ⟨c, hc, hch0⟩, h⟩)
        · exact Or.inl h
        · exact Or.inr ⟨c, hc, ch0, hch0, h.symm⟩
      · rintro (h | ⟨c, hc, ch0, hch0, h⟩)
        · exact Or.inl h
        · exact Or.inr ⟨ch0, ⟨c, hc, hch0⟩, h.symm⟩


theorem contains_iff_mem_nat (l : List Nat) (a : Nat) :
    l.contains a = true ↔ a ∈ l := by
  simp [List.elem_iff]

theorem pruneTo_eq_some (keep : Nat → Bool) (n : Nat) (nm : String)
    (rs : List Row) (cs : List CTree) (t' : CTree)
    (h : pruneTo keep (.node n nm rs cs) = some t') :
    t' = .node n nm rs (cs.filterMap (fun c => pruneTo keep c)) ∧
      (keep n || !(cs.filterMap (fun c => pruneTo keep c)).isEmpty) = true := by
  rw [pruneTo_node] at h
  simp only [] at h
  split at h
  · exact ⟨(Option.some.inj h).symm, by assumption⟩
  · cases h

theorem chains_of_pruned (keep : Nat → Bool) (s : CTree) :
    ∀ s', pruneTo keep s = some s' → ∀ ch ∈ chainsFrom s', ch ∈ chainsFrom s := by
  induction s using CTree.ind with
  | _ n nm rs cs ih =>
    intro s' hs' ch hch
    obtain ⟨rfl, -⟩ := pruneTo_eq_some keep n nm rs cs s' hs'
    rw [mem_chainsFrom_iff] at hch
    rw [mem_chainsFrom_iff]
    rcases hch with h | ⟨c', hc', ch0, hch0, h⟩
    · exact Or.inl h
    · simp only [CTree.children] at hc'
      obtain ⟨c, hc, hpc⟩ := List.mem_filterMap.mp hc'
      exact Or.inr ⟨c, hc, ch0, ih c hc c' hpc ch0 hch0, h⟩

theorem subtrees_of_pruned (keep : Nat → Bool) (t : CTree) :
    ∀ t', pruneTo keep t = some t' →
      ∀ s' ∈ subtrees t', ∃ s ∈ subtrees t, pruneTo keep s = some s' := by
  induction t using CTree.ind with
  | _ n nm rs cs ih =>
    intro t' ht' s' hs'
    obtain ⟨rfl, -⟩ := pruneTo_eq_some keep n nm rs cs t' ht'
    rw [mem_subtrees_iff] at hs'
    rcases hs' with rfl | ⟨c', hc', hsub⟩
    · exact ⟨.node n nm rs cs, self_mem_subtrees _, ht'⟩
    · simp only [CTree.children] at hc'
      obtain ⟨c, hc, hpc⟩ := List.mem_filterMap.mp hc'
      obtain ⟨s, hsmem, hps⟩ := ih c hc c' hpc s' hsub
      refine ⟨s, ?_, hps⟩
      rw [mem_subtrees_iff]
      exact Or.inr ⟨c, hc, hsmem⟩

theorem pruneTo_some_of_subtree (keep : Nat → Bool) (t : CTree) :
    ∀ s ∈ subtrees t, (∃ s', pruneTo keep s = some s') →
      ∃ t', pruneTo keep t = some t' := by
  induction t using CTree.ind with
  | _ n nm rs cs ih =>
    intro s hs hex
    rw [mem_subtrees_iff] at hs
    rcases hs with rfl | ⟨c, hc, hsub⟩
    · exact hex
    · simp only [CTree.children] at hc
      obtain ⟨c', hc'⟩ := ih c hc s hsub hex
      have hmem : c' ∈ cs.filterMap (fun x => pruneTo keep x) :=
        List.mem_filterMap.mpr ⟨c, hc, hc'⟩
      have hne : (cs.filterMap (fun x => pruneTo keep x)).isEmpty = false := by
        rw [List.isEmpty_eq_false]
        intro hnil
        rw [hnil] at hmem
        cases hmem
      refine ⟨.node n nm rs (cs.filterMap (fun x => pruneTo keep x)), ?_⟩
      rw [pruneTo_node]
      simp [hne]

theorem chain_in_pruned (keep : Nat → Bool) (s : CTree) :
    ∀ ch ∈ chainsFrom s, (∀ v ∈ ch, keep v.nid = true) →
      ∃ s', pruneTo keep s = some s' ∧ ch ∈ chainsFrom s' := by
  induction s using CTree.ind with
  | _ n nm rs cs ih =>
    intro ch hch hkeep
    rw [mem_chainsFrom_iff] at hch
    rcases hch with rfl | ⟨c, hc, ch0, hch0, rfl⟩
    · have hkn : keep n = true := hkeep _ (List.mem_cons_self _ _)
      refine ⟨.node n nm rs (cs.filterMap (fun c => pruneTo keep c)), ?_, ?_⟩
      · rw [pruneTo_node]
        simp [hkn]
      · rw [mem_chainsFrom_iff]
        exact Or.inl rfl
    · have hkn : keep n = true := hkeep _ (List.mem_cons_self _ _)
      simp only [CTree.children] at hc
      obtain ⟨c', hpc, hch0'⟩ :=
        ih c hc ch0 hch0 (fun v hv => hkeep v (List.mem_cons_of_mem _ hv))
      refine ⟨.node n nm rs (cs.filterMap (fun c => pruneTo keep c)), ?_, ?_⟩
      · rw [pruneTo_node]
        simp [hkn]
      · rw [mem_chainsFrom_iff]
        exact Or.inr ⟨c', List.mem_filterMap.mpr ⟨c, hc, hpc⟩, ch0, hch0', rfl⟩

theorem pruned_subtree_mem (keep : Nat → Bool) (t : CTree) :
    ∀ t', pruneTo keep t = some t' →
      ∀ s ∈ subtrees t, ∀ s', pruneTo keep s = some s' → s' ∈ subtrees t' := by
  induction t using CTree.ind with
  | _ n nm rs cs ih =>
    intro t' ht' s hs s' hs'
    rw [mem_subtrees_iff] at hs
    rcases hs with rfl | ⟨c, hc, hsub⟩
    · rw [ht'] at hs'
      rw [Option.some.inj hs']
      exact self_mem_subtrees _
    · simp only [CTree.children] at hc
      obtain ⟨c'', hc''⟩ := pruneTo_some_of_subtree keep c s hsub ⟨s', hs'⟩
      have hmem : s' ∈ subtrees c'' := ih c hc c'' hc'' s hsub s' hs'
      obtain ⟨rfl, -⟩ := pruneTo_eq_some keep n nm rs cs t' ht'
      rw [mem_subtrees_iff]
      exact Or.inr ⟨c'', List.mem_filterMap.mpr ⟨c, hc, hc''⟩, hmem⟩

theorem filterMap_id_of_mem {α : Type} (l : List α) (f : α → Option α)
    (h : ∀ x ∈ l, f x = some x) : l.filterMap f = l := by
  induction l with
  | nil => rfl
  | cons x xs ihl =>
      rw [List.filterMap_cons, h x (List.mem_cons_self x xs)]
      rw [ihl (fun y hy => h y (List.mem_cons_of_mem _ hy))]

theorem pruneTo_idem (keep : Nat → Bool) (t : CTree) :
    ∀ t', pruneTo keep t = some t' → pruneTo keep t' = some t' := by
  induction t using CTree.ind with
  | _ n nm rs cs ih =>
    intro t' ht'
    obtain ⟨rfl, hcond⟩ := pruneTo_eq_some keep n nm rs cs t' ht'
    have hfix : (cs.filterMap (fun c => pruneTo keep c)).filterMap
        (fun c => pruneTo keep c) = cs.filterMap (fun c => pruneTo keep c) := by
      apply filterMap_id_of_mem
      intro x hx
      obtain ⟨c, hc, hpc⟩ := List.mem_filterMap.mp hx
      exact ih c hc x hpc
    rw [pruneTo_node]
    simp only [hfix]
    simp [hcond]

theorem pruneTo_congr (k1 k2 : Nat → Bool) (hk : ∀ n, k1 n = k2 n)
    (t : CTree) : pruneTo k1 t = pruneTo k2 t := by
  induction t using CTree.ind with
  | _ n nm rs cs ih =>
    rw [pruneTo_node, pruneTo_node]
    have hcs : cs.filterMap (fun c => pruneTo k1 c)
        = cs.filterMap (fun c => pruneTo k2 c) :=
      List.filterMap_congr (fun c hc => ih c hc)
    simp only [hcs, hk n]

theorem allChains_pruned_subset (keep : Nat → Bool) (t t' : CTree)
    (h : pruneTo keep t = some t') :
    ∀ ch ∈ allChains t', ch ∈ allChains t := by
  intro ch hch
  obtain ⟨s', hs', hchs⟩ := List.mem_flatMap.mp hch
  obtain ⟨s, hs, hps⟩ := subtrees_of_pruned keep t t' h s' hs'
  exact List.mem_flatMap.mpr ⟨s, hs, chains_of_pruned keep s s' hps ch hchs⟩

theorem allChains_kept (keep : Nat → Bool) (t t' : CTree)
    (h : pruneTo keep t = some t') :
    ∀ ch ∈ allChains t, (∀ v ∈ ch, keep v.nid = true) → ch ∈ allChains t' := by
  intro ch hch hkeep
  obtain ⟨s, hs, hchs⟩ := List.mem_flatMap.mp hch
  obtain ⟨s', hps, hch'⟩ := chain_in_pruned keep s ch hchs hkeep
  exact List.mem_flatMap.mpr
    ⟨s', pruned_subtree_mem keep t t' h s hs s' hps, hch'⟩

theorem mem_matchedIds_iff (p : List Step) (t : CTree) (n : Nat) :
    n ∈ matchedIds p t ↔
      ∃ ch ∈ allChains t, matchSeq p ch = true ∧ ∃ v ∈ ch, v.nid = n := by
  unfold matchedIds
  constructor
  · intro h
    obtain ⟨ch, hch, hn⟩ := List.mem_flatMap.mp h
    obtain ⟨hch1, hch2⟩ := List.mem_filter.mp hch
    obtain ⟨v, hv, hvn⟩ := List.mem_map.mp hn
    exact ⟨ch, hch1, hch2, v, hv, hvn⟩
  · intro ⟨ch, hch1, hch2, v, hv, hvn⟩
    exact List.mem_flatMap.mpr
      ⟨ch, List.mem_filter.mpr ⟨hch1, hch2⟩, List.mem_map.mpr ⟨v, hv, hvn⟩⟩

theorem matchedIds_query_invariant (p : List Step) (t t' : CTree)
    (h : queryTree p t = some t') :
    ∀ n, n ∈ matchedIds p t' ↔ n ∈ matchedIds p t := by
  unfold queryTree at h
  intro n
  constructor
  · intro hn
    obtain ⟨ch, hch, hm, v, hv, hvn⟩ := (mem_matchedIds_iff p t' n).mp hn
    exact (mem_matchedIds_iff p t n).mpr
      ⟨ch, allChains_pruned_subset _ t t' h ch hch, hm, v, hv, hvn⟩
  · intro hn
    obtain ⟨ch, hch, hm, v, hv, hvn⟩ := (mem_matchedIds_iff p t n).mp hn
    have hkeep : ∀ w ∈ ch, (matchedIds p t).contains w.nid = true := by
      intro w hw
      exact (contains_iff_mem_nat _ _).mpr
        ((mem_matchedIds_iff p t w.nid).mpr ⟨ch, hch, hm, w, hw, rfl⟩)
    exact (mem_matchedIds_iff p t' n).mpr
      ⟨ch, allChains_kept _ t t' h ch hch hkeep, hm, v, hv, hvn⟩

/-- C3: query matching is idempotent — for every structural pattern `p` and
every thicket call tree `t`, applying the query to its own result yields that
result again: the same retained nodes with the same retained rows. -/
theorem query_idempotent (p : List Step) (t : CTree) :
    (queryTree p t).bind (queryTree p) = queryTree p t := by
  cases hq : queryTree p t with
  | none => rfl
  | some t' =>
      have h1 : queryTree p t' = pruneTo (fun n => (matchedIds p t).contains n) t' := by
        unfold queryTree
        apply pruneTo_congr
        intro n
        rw [Bool.eq_iff_iff, contains_iff_mem_nat, contains_iff_mem_nat]
        exact matchedIds_query_invariant p t t' hq n
      have h2 : pruneTo (fun n => (matchedIds p t).contains n) t' = some t' :=
        pruneTo_idem _ t t' hq
      simp only [Option.some_bind]
      rw [h1, h2]


theorem view_nid (t : CTree) : t.view.nid = t.nid := by
  cases t
  rfl

theorem view_cname (t : CTree) : t.view.name = t.cname := by
  cases t
  rfl

theorem view_rows (t : CTree) : t.view.rows = t.rows := by
  cases t
  rfl

theorem matchSeq_single_rel (pred : String → Row → Bool) (ch : List NodeView) :
    matchSeq [Step.rel pred] ch = true ↔
      ∃ v, ch = [v] ∧ v.rows.all (fun r => pred v.name r) = true := by
  cases ch with
  | nil => simp [matchSeq]
  | cons v vs =>
      cases vs with
      | nil => simp [matchSeq]
      | cons w ws => simp [matchSeq]

theorem singleton_chain_eq_view (s : CTree) (v : NodeView)
    (h : [v] ∈ chainsFrom s) : v = s.view := by
  rw [mem_chainsFrom_iff] at h
  rcases h with h | ⟨c, hc, ch0, hch0, h⟩
  · exact (List.cons.inj h).1
  · exact absurd ((List.cons.inj h).2).symm (chainsFrom_ne_nil c ch0 hch0)

theorem view_mem_chainsFrom (s : CTree) : [s.view] ∈ chainsFrom s := by
  rw [mem_chainsFrom_iff]
  exact Or.inl rfl

theorem mem_matchedIds_single_rel (pred : String → Row → Bool) (t : CTree)
    (m : Nat) :
    m ∈ matchedIds [Step.rel pred] t ↔
      ∃ s0 ∈ subtrees t, s0.nid = m ∧
        s0.rows.all (fun r => pred s0.cname r) = true := by
  rw [mem_matchedIds_iff]
  constructor
  · rintro ⟨ch, hch, hm, v, hv, hvn⟩
    obtain ⟨s0, hs0, hchs0⟩ := List.mem_flatMap.mp hch
    obtain ⟨w, rfl, hall⟩ := (matchSeq_single_rel pred ch).mp hm
    have hw : w = s0.view := singleton_chain_eq_view s0 w hchs0
    have hv' : v = w := by
      rcases List.mem_singleton.mp hv with rfl
      rfl
    refine ⟨s0, hs0, ?_, ?_⟩
    · rw [← hvn, hv', hw, view_nid]
    · rw [hw, view_cname, view_rows] at hall
      exact hall
  · rintro ⟨s0, hs0, hnid, hall⟩
    refine ⟨[s0.view], List.mem_flatMap.mpr ⟨s0, hs0, view_mem_chainsFrom s0⟩,
      ?_, s0.view, List.mem_singleton.mpr rfl, by rw [view_nid, hnid]⟩
    rw [matchSeq_single_rel]
    exact ⟨s0.view, rfl, by rw [view_cname, view_rows]; exact hall⟩

/-- C4: for a query whose relation step carries a row predicate, a candidate
node is matched by that relation step only if the predicate holds for all rows
associated with the node; a node with at least one failing row is not matched
by the relation step. -/
theorem rel_step_requires_all_rows (pred : String → Row → Bool) (t s : CTree)
    (hs : s ∈ subtrees t)
    (hnd : ((subtrees t).map (fun x => x.nid)).Nodup) :
    (s.nid ∈ matchedIds [Step.rel pred] t →
        ∀ r ∈ s.rows, pred s.cname r = true) ∧
    ((∃ r ∈ s.rows, pred s.cname r = false) →
        s.nid ∉ matchedIds [Step.rel pred] t) := by
  have hmain : s.nid ∈ matchedIds [Step.rel pred] t →
      ∀ r ∈ s.rows, pred s.cname r = true := by
    intro hm r hr
    obtain ⟨s0, hs0, hnid, hall⟩ :=
      (mem_matchedIds_single_rel pred t s.nid).mp hm
    have hs0s : s0 = s := List.inj_on_of_nodup_map hnd hs0 hs hnid
    subst hs0s
    exact List.all_eq_true.mp hall r hr
  refine ⟨hmain, ?_⟩
  rintro ⟨r, hr, hfail⟩ hm
  rw [hmain hm r hr] at hfail
  cases hfail

/-- A statistics row for the session model: derived column name to value. -/
def StatsRowR := List (String × Rat)

/-- A notebook session environment mapping variable names to thickets (call
tree with its performance rows, plus a statistics table keyed by node).
Modelled from the spec and the notebook: the query result is bound to a new
name (`th_algorithm_ex1 = th_lassen.query(...)`) while the source variable
keeps its full structure. -/
def Env := List (String × (CTree × List (Nat × StatsRowR)))

def envLookup (e : Env) (x : String) : Option (CTree × List (Nat × StatsRowR)) :=
  match e.find? (fun b => b.1 == x) with
  | some b => some b.2
  | none => none

/-- Run a query on the thicket bound to `src` and bind the reduced result
(with the statistics table restricted to retained nodes) to `dst`.  Modelled
from the spec: the query "returns a new reduced structure", propagating the
selection to dependent tables. -/
def runQueryIn (e : Env) (src : String) (p : List Step) (dst : String) : Env :=
  ((envLookup e src).bind (fun tsf =>
    (queryTree p tsf.1).map (fun t' =>
      (dst, (t', tsf.2.filter
        (fun row => ((subtrees t').map (fun s => s.nid)).contains row.1))) :: e))).getD e

/-- C10: applying a query leaves the original thicket unchanged — after the
query result is bound to a fresh name, every previously bound name (the source
thicket in particular) still maps to its full call tree, performance rows and
statistics table, so a second, different query on the same name matches
against the original unreduced structure. -/
theorem query_no_mutation (e : Env) (src : String) (p : List Step)
    (dst : String) :
    ∀ x, x ≠ dst → envLookup (runQueryIn e src p dst) x = envLookup e x := by
  intro x hx
  unfold runQueryIn
  cases h1 : envLookup e src with
  | none => simp
  | some tsf =>
      cases h2 : queryTree p tsf.1 with
      | none => simp [h2]
      | some t' =>
          simp only [Option.some_bind, h2, Option.map_some', Option.getD_some]
          unfold envLookup
          rw [List.find?_cons_of_neg]
          simp only [beq_iff_eq]
          exact fun h => hx h.symm


/-- Concrete call tree for witnesses: a root with one child, each carrying one
performance row. -/
def texTree : CTree :=
  CTree.node 0 "Algorithm" [⟨1, [("Total time (exc)", 5)]⟩]
    [CTree.node 1 "Algorithm.Stream_MUL" [⟨1, [("Total time (exc)", 3)]⟩] []]

/-- Concrete row predicate for witnesses: accepts rows of run 2 only. -/
def texPred : String → Row → Bool := fun _ r => r.run == 2

theorem rel_step_requires_all_rows_witness :
    texTree ∈ subtrees texTree ∧
    ((subtrees texTree).map (fun x => x.nid)).Nodup ∧
    ((texTree.nid ∈ matchedIds [Step.rel texPred] texTree →
        ∀ r ∈ texTree.rows, texPred texTree.cname r = true) ∧
      ((∃ r ∈ texTree.rows, texPred texTree.cname r = false) →
        texTree.nid ∉ matchedIds [Step.rel texPred] texTree)) :=
  ⟨self_mem_subtrees texTree,
   by simp [texTree, subtrees_node, CTree.nid],
   rel_step_requires_all_rows texPred texTree texTree
     (self_mem_subtrees texTree)
     (by simp [texTree, subtrees_node, CTree.nid])⟩

theorem query_no_mutation_witness :
    ("th_lassen" : String) ≠ "th_algorithm" ∧
    envLookup
        (runQueryIn [("th_lassen", (texTree, [(0, [("m", 1)])]))]
          "th_lassen" [Step.star, Step.rel texPred] "th_algorithm")
        "th_lassen"
      = envLookup [("th_lassen", (texTree, [(0, [("m", 1)])]))] "th_lassen" :=
  ⟨by decide,
   query_no_mutation [("th_lassen", (texTree, [(0, [("m", 1)])]))]
     "th_lassen" [Step.star, Step.rel texPred] "th_algorithm"
     "th_lassen" (by decide)⟩

end ThicketModel

namespace ThicketModel



/-- A value stored in a statistics-table cell: a number, or the list of
percentile values a single percentiles call appends.  Modelled from the
notebook's documented contract: the percentiles operation "results in a new
column appended to the statistics table containing the 25th, 50th, and 75th
percentiles of the values in the provided column". -/
inductive StatVal where
  | num (q : Rat)
  | plist (qs : List Rat)
deriving DecidableEq

/-- The aggregation kinds demonstrated in the tutorial. -/
inductive AggKind where
  | mean
  | median
  | percentiles
deriving DecidableEq

/-- The name suffix of each aggregation kind, as displayed in the notebook
(for example `Total time (exc)_median` in `statsframe.tree`). -/
def aggSuffix : AggKind → String
  | .mean => "_mean"
  | .median => "_median"
  | .percentiles => "_percentiles"

/-- Modelled from the spec: every aggregation writes "under a deterministic
derived column name (`<metric>_<aggregation-kind>`)". -/
def derivedName (m : String) (k : AggKind) : String := m ++ aggSuffix k

/-- Insert a value into a sorted list of values (insertion sort step). -/
def insertSorted (x : Rat) : List Rat → List Rat
  | [] => [x]
  | y :: ys => if x ≤ y then x :: y :: ys else y :: insertSorted x ys

/-- Sort the per-run metric values before percentile interpolation. -/
def sortRats (xs : List Rat) : List Rat := xs.foldr insertSorted []

/-- The p-th percentile of a value list under the linear interpolation
policy (the numpy default used by the toolkit): with sorted values
`ys` of length `n`, the rank is `p/100 * (n-1)` and the result interpolates
linearly between the two neighbouring sorted values. -/
def percentileLinear (p : Rat) (xs : List Rat) : Rat :=
  let ys := sortRats xs
  let n := ys.length
  if n = 0 then 0
  else
    let h : Rat := (p / 100) * ((n : Rat) - 1)
    let i : Nat := h.floor.toNat
    let lo := ys.getD i 0
    let hi := ys.getD (min (i + 1) (n - 1)) 0
    lo + (h - (i : Rat)) * (hi - lo)

/-- Arithmetic mean of the per-run values. -/
def meanRat (xs : List Rat) : Rat := xs.sum / (xs.length : Rat)

/-- The value an aggregation kind computes from one node's values across the
runs in scope.  Modelled from the spec for mean and median; percentiles
follow the notebook's markdown contract (one combined list value per call)
rather than the spec's "multiple sibling columns". -/
def aggValue : AggKind → List Rat → StatVal
  | .mean, xs => .num (meanRat xs)
  | .median, xs => .num (percentileLinear 50 xs)
  | .percentiles, xs =>
      .plist [percentileLinear 25 xs, percentileLinear 50 xs,
        percentileLinear 75 xs]

abbrev StatsRow := List (String × StatVal)

/-- The values of one metric for one node across all runs reaching it. -/
def valuesOf (perf : List PerfRow) (nid : Nat) (m : String) : List Rat :=
  (perf.filter (fun r => r.node == nid)).filterMap
    (fun r => (r.metrics.find? (fun c => c.1 == m)).map (fun c => c.2))

/-- Look up a statistics column value in a statistics row. -/
def colVal (row : StatsRow) (c : String) : Option StatVal :=
  (row.find? (fun x => x.1 == c)).map (fun x => x.2)

/-- Whether a statistics row has a column of the given name. -/
def hasCol (row : StatsRow) (c : String) : Bool :=
  row.any (fun x => x.1 == c)

/-- Write one derived column into a statistics row: assign in place when the
column exists, append otherwise (the pandas column-assignment discipline). -/
def writeCol (row : StatsRow) (c : String) (v : StatVal) : StatsRow :=
  if hasCol row c then row.map (fun x => if x.1 == c then (c, v) else x)
  else row ++ [(c, v)]

/-- A thicket as the Aggregator sees it: the performance table and the
node-indexed statistics table.  Modelled from the spec: the statistics rows
"persist across calls, so repeated aggregation calls accumulate columns". -/
structure AThicket where
  perf : List PerfRow
  statsframe : List (Nat × StatsRow)

/-- The effect of one aggregation call on one node's statistics row: for
each requested metric, write the aggregate of that node's values under the
derived column name. -/
def aggRowU (perf : List PerfRow) (k : AggKind) (ms : List String)
    (nid : Nat) (row : StatsRow) : StatsRow :=
  ms.foldl (fun r m => writeCol r (derivedName m k)
    (aggValue k (valuesOf perf nid m))) row

/-- One aggregation call over the whole thicket (`tt.mean`, `tt.median`,
`tt.percentiles`).  Modelled from the spec: it "computes, for every node
present in the Performance Table, the aggregate of that node's values across
the subset of runs currently in scope, and writes the result into the
Statistics row"; the implementations are not in the repository. -/
def applyAgg (k : AggKind) (ms : List String) (th : AThicket) : AThicket :=
  ⟨th.perf, th.statsframe.map (fun nr => (nr.1, aggRowU th.perf k ms nr.1 nr.2))⟩

/-- A sequence of aggregation calls, e.g. median then mean then percentiles
as the notebook performs them. -/
def applyCalls (calls : List (AggKind × List String)) (th : AThicket) :
    AThicket :=
  calls.foldl (fun t c => applyAgg c.1 c.2 t) th

/-- The effect of a sequence of aggregation calls on one node's row. -/
def callsRowU (perf : List PerfRow) (calls : List (AggKind × List String))
    (nid : Nat) (row : StatsRow) : StatsRow :=
  calls.foldl (fun r cl => aggRowU perf cl.1 cl.2 nid r) row

theorem append_ne_of_rev_ne (a b : String) (u v : String) (k : Nat)
    (hk1 : k < u.data.length) (hk2 : k < v.data.length)
    (hne : u.data.reverse[k]? ≠ v.data.reverse[k]?) :
    a ++ u ≠ b ++ v := by
  intro h
  apply hne
  have hd : (a ++ u).data.reverse = (b ++ v).data.reverse := by rw [h]
  rw [String.data_append, String.data_append, List.reverse_append,
    List.reverse_append] at hd
  have h1 : (u.data.reverse ++ a.data.reverse)[k]? = u.data.reverse[k]? :=
    List.getElem?_append_left (by rw [List.length_reverse]; exact hk1)
  have h2 : (v.data.reverse ++ b.data.reverse)[k]? = v.data.reverse[k]? :=
    List.getElem?_append_left (by rw [List.length_reverse]; exact hk2)
  rw [← h1, ← h2, hd]

theorem append_right_cancel_str (a b s : String) (h : a ++ s = b ++ s) :
    a = b := by
  have hd : (a ++ s).data = (b ++ s).data := by rw [h]
  rw [String.data_append, String.data_append] at hd
  exact String.ext (List.append_cancel_right hd)

theorem derivedName_inj (k : AggKind) (m1 m2 : String)
    (h : derivedName m1 k = derivedName m2 k) : m1 = m2 :=
  append_right_cancel_str m1 m2 (aggSuffix k) h

theorem derivedName_ne_of_kind_ne (k1 k2 : AggKind) (hk : k1 ≠ k2)
    (m1 m2 : String) : derivedName m1 k1 ≠ derivedName m2 k2 := by
  cases k1 <;> cases k2 <;> first
    | exact absurd rfl hk
    | exact append_ne_of_rev_ne m1 m2 _ _ 0 (by decide) (by decide) (by decide)
    | exact append_ne_of_rev_ne m1 m2 _ _ 2 (by decide) (by decide) (by decide)

theorem find?_substCol_self (row : List (String × StatVal)) (c : String)
    (v : StatVal) :
    (row.map (fun x => if x.1 == c then (c, v) else x)).find?
        (fun x => x.1 == c)
      = (row.find? (fun x => x.1 == c)).map (fun _ => (c, v)) := by
  induction row with
  | nil => rfl
  | cons y ys ih =>
      rw [List.map_cons]
      by_cases hy : (y.1 == c) = true
      · rw [if_pos hy,
          @List.find?_cons_of_pos _ (fun x => x.1 == c) (c, v) _ (by simp),
          @List.find?_cons_of_pos _ (fun x => x.1 == c) y _ hy]
        rfl
      · rw [if_neg hy,
          @List.find?_cons_of_neg _ (fun x => x.1 == c) y _ hy,
          @List.find?_cons_of_neg _ (fun x => x.1 == c) y _ hy]
        exact ih

theorem find?_substCol_other (row : List (String × StatVal)) (c c' : String)
    (v : StatVal) (hcc : c' ≠ c) :
    (row.map (fun x => if x.1 == c then (c, v) else x)).find?
        (fun x => x.1 == c')
      = row.find? (fun x => x.1 == c') := by
  induction row with
  | nil => rfl
  | cons y ys ih =>
      rw [List.map_cons]
      by_cases hy : (y.1 == c) = true
      · have hy1 : y.1 = c := by simpa using hy
        have hnc : ¬((c : String) == c') = true := by
          simp only [beq_iff_eq]
          exact fun hctr => hcc hctr.symm
        rw [if_pos hy,
          @List.find?_cons_of_neg _ (fun x => x.1 == c') (c, v) _ hnc,
          @List.find?_cons_of_neg _ (fun x => x.1 == c') y _
            (by simp only []; rw [hy1]; exact hnc)]
        exact ih
      · rw [if_neg hy]
        by_cases hy' : (y.1 == c') = true
        · rw [@List.find?_cons_of_pos _ (fun x => x.1 == c') y _ hy',
            @List.find?_cons_of_pos _ (fun x => x.1 == c') y _ hy']
        · rw [@List.find?_cons_of_neg _ (fun x => x.1 == c') y _ hy',
            @List.find?_cons_of_neg _ (fun x => x.1 == c') y _ hy']
          exact ih

theorem hasCol_iff_find? (row : StatsRow) (c : String) :
    hasCol row c = true ↔ (row.find? (fun x => x.1 == c)).isSome = true := by
  rw [List.find?_isSome]
  unfold hasCol
  rw [List.any_eq_true]

theorem colVal_writeCol_self (row : StatsRow) (c : String) (v : StatVal) :
    colVal (writeCol row c v) c = some v := by
  unfold writeCol colVal
  by_cases h : hasCol row c = true
  · rw [if_pos h, find?_substCol_self]
    obtain ⟨x, hx⟩ := Option.isSome_iff_exists.mp ((hasCol_iff_find? row c).mp h)
    rw [hx]
    rfl
  · rw [if_neg h, List.find?_append]
    have hnone : row.find? (fun x => x.1 == c) = none := by
      cases hfind : row.find? (fun x => x.1 == c) with
      | none => rfl
      | some x =>
          exact absurd ((hasCol_iff_find? row c).mpr (by rw [hfind]; rfl)) h
    rw [hnone]
    simp [List.find?]

theorem colVal_writeCol_other (row : StatsRow) (c c' : String) (v : StatVal)
    (hcc : c' ≠ c) :
    colVal (writeCol row c v) c' = colVal row c' := by
  unfold writeCol colVal
  by_cases h : hasCol row c = true
  · rw [if_pos h, find?_substCol_other row c c' v hcc]
  · rw [if_neg h, List.find?_append]
    have hlast : List.find? (fun x => x.1 == c') [(c, v)] = none := by
      rw [@List.find?_cons_of_neg _ (fun x => x.1 == c') (c, v) _
        (by simp only [beq_iff_eq]; exact fun hctr => hcc hctr.symm)]
      rfl
    rw [hlast]
    cases hfind : row.find? (fun x => x.1 == c') <;> rfl

theorem hasCol_writeCol (row : StatsRow) (c c' : String) (v : StatVal) :
    hasCol (writeCol row c v) c' = (hasCol row c' || (c == c')) := by
  by_cases hcc : c' = c
  · subst hcc
    simp only [beq_self_eq_true, Bool.or_true]
    rw [hasCol_iff_find?, Option.isSome_iff_exists]
    refine ⟨(c', v), ?_⟩
    have := colVal_writeCol_self row c' v
    unfold colVal at this
    cases hfind : (writeCol row c' v).find? (fun x => x.1 == c') with
    | none => rw [hfind] at this; cases this
    | some x =>
        rw [hfind] at this
        obtain ⟨x1, x2⟩ := x
        have hx2 : x2 = v := by simpa using this
        have hx1 : x1 = c' := by
          have := List.find?_some hfind
          simpa using this
        rw [hx1, hx2]
  · have hne : ((c == c') : Bool) = false := by
      simp only [beq_eq_false_iff_ne, ne_eq]
      exact fun hctr => hcc hctr.symm
    rw [hne, Bool.or_false]
    have hcv := colVal_writeCol_other row c c' v hcc
    unfold colVal at hcv
    have hsome : ((writeCol row c v).find? (fun x => x.1 == c')).isSome
        = (row.find? (fun x => x.1 == c')).isSome := by
      cases h1 : (writeCol row c v).find? (fun x => x.1 == c') <;>
        cases h2 : row.find? (fun x => x.1 == c') <;>
          rw [h1, h2] at hcv <;> simp at hcv ⊢
    rw [Bool.eq_iff_iff, hasCol_iff_find?, hasCol_iff_find?, hsome]


theorem ratFloor_eq_of (q : Rat) (z : Int) (h1 : (z : Rat) ≤ q)
    (h2 : q < (z : Rat) + 1) : Rat.floor q = z := by
  have ha : z ≤ Rat.floor q := Rat.le_floor.mpr h1
  have hb : Rat.floor q < z + 1 := by
    by_contra hcon
    push_neg at hcon
    have := Rat.le_floor.mp hcon
    push_cast at this
    linarith
  omega

theorem sortRats_pair : sortRats [(10 : Rat), 20] = [10, 20] := by
  show insertSorted 10 (insertSorted 20 []) = [10, 20]
  rw [show insertSorted (20 : Rat) [] = [20] from rfl]
  unfold insertSorted
  rw [if_pos (by norm_num : (10 : Rat) ≤ 20)]

theorem percentileLinear_two (p : Rat) (h0 : Rat.floor (p / 100) = 0) :
    percentileLinear p [10, 20] = 10 + p / 100 * 10 := by
  simp only [percentileLinear]
  rw [sortRats_pair]
  simp only [List.length_cons, List.length_nil]
  norm_num
  rw [h0]
  simp
  ring_nf
  exact Or.inl trivial

theorem percentile25_pair : percentileLinear 25 [(10 : Rat), 20] = 25/2 := by
  rw [percentileLinear_two 25 (ratFloor_eq_of _ 0 (by norm_num) (by norm_num))]
  norm_num

theorem percentile50_pair : percentileLinear 50 [(10 : Rat), 20] = 15 := by
  rw [percentileLinear_two 50 (ratFloor_eq_of _ 0 (by norm_num) (by norm_num))]
  norm_num

theorem percentile75_pair : percentileLinear 75 [(10 : Rat), 20] = 35/2 := by
  rw [percentileLinear_two 75 (ratFloor_eq_of _ 0 (by norm_num) (by norm_num))]
  norm_num

theorem meanRat_pair : meanRat [(10 : Rat), 20] = 15 := by
  unfold meanRat
  norm_num


theorem colVal_aggRowU_not_written (perf : List PerfRow) (k : AggKind)
    (nid : Nat) (c : String) :
    ∀ (ms : List String) (row : StatsRow),
      (∀ m ∈ ms, derivedName m k ≠ c) →
      colVal (aggRowU perf k ms nid row) c = colVal row c := by
  intro ms
  induction ms with
  | nil => intro row _; rfl
  | cons m0 rest ih =>
      intro row hc
      unfold aggRowU
      rw [List.foldl_cons]
      have h1 := ih (writeCol row (derivedName m0 k)
        (aggValue k (valuesOf perf nid m0)))
        (fun m hm => hc m (List.mem_cons_of_mem _ hm))
      unfold aggRowU at h1
      rw [h1]
      exact colVal_writeCol_other row (derivedName m0 k) c _
        (fun h => hc m0 (List.mem_cons_self _ _) h.symm)

theorem colVal_aggRowU_written (perf : List PerfRow) (k : AggKind)
    (nid : Nat) (m : String) :
    ∀ (ms : List String) (row : StatsRow), m ∈ ms →
      colVal (aggRowU perf k ms nid row) (derivedName m k)
        = some (aggValue k (valuesOf perf nid m)) := by
  intro ms
  induction ms with
  | nil => intro row hm; cases hm
  | cons m0 rest ih =>
      intro row hm
      unfold aggRowU
      rw [List.foldl_cons]
      by_cases hmem : m ∈ rest
      · have := ih (writeCol row (derivedName m0 k)
          (aggValue k (valuesOf perf nid m0))) hmem
        unfold aggRowU at this
        exact this
      · have hm0 : m = m0 := by
          rcases List.mem_cons.mp hm with h | h
          · exact h
          · exact absurd h hmem
        subst hm0
        have hrest : ∀ m' ∈ rest, derivedName m' k ≠ derivedName m k := by
          intro m' hm' heq
          exact hmem (derivedName_inj k m' m heq ▸ hm')
        have h1 := colVal_aggRowU_not_written perf k nid (derivedName m k)
          rest (writeCol row (derivedName m k)
            (aggValue k (valuesOf perf nid m))) hrest
        unfold aggRowU at h1
        rw [h1]
        exact colVal_writeCol_self row (derivedName m k) _

theorem hasCol_aggRowU (perf : List PerfRow) (k : AggKind) (nid : Nat)
    (c : String) :
    ∀ (ms : List String) (row : StatsRow),
      hasCol (aggRowU perf k ms nid row) c
        = (hasCol row c || ms.any (fun m => derivedName m k == c)) := by
  intro ms
  induction ms with
  | nil => intro row; simp [aggRowU]
  | cons m0 rest ih =>
      intro row
      unfold aggRowU
      rw [List.foldl_cons]
      have h1 := ih (writeCol row (derivedName m0 k)
        (aggValue k (valuesOf perf nid m0)))
      unfold aggRowU at h1
      rw [h1, hasCol_writeCol, List.any_cons, ← Bool.or_assoc]

theorem colVal_callsRowU_other_kinds (perf : List PerfRow) (nid : Nat)
    (k : AggKind) (m : String) :
    ∀ (calls : List (AggKind × List String)) (row : StatsRow),
      (∀ cl ∈ calls, cl.1 ≠ k) →
      colVal (callsRowU perf calls nid row) (derivedName m k)
        = colVal row (derivedName m k) := by
  intro calls
  induction calls with
  | nil => intro row _; rfl
  | cons c0 rest ih =>
      intro row hk
      unfold callsRowU
      rw [List.foldl_cons]
      have h1 := ih (aggRowU perf c0.1 c0.2 nid row)
        (fun cl hcl => hk cl (List.mem_cons_of_mem _ hcl))
      unfold callsRowU at h1
      rw [h1]
      exact colVal_aggRowU_not_written perf c0.1 nid (derivedName m k) c0.2 row
        (fun m' _ => derivedName_ne_of_kind_ne c0.1 k
          (hk c0 (List.mem_cons_self _ _)) m' m)

theorem colVal_callsRowU_written (perf : List PerfRow) (nid : Nat) :
    ∀ (calls : List (AggKind × List String)) (row : StatsRow),
      (calls.map Prod.fst).Nodup →
      ∀ cl ∈ calls, ∀ m ∈ cl.2,
        colVal (callsRowU perf calls nid row) (derivedName m cl.1)
          = some (aggValue cl.1 (valuesOf perf nid m)) := by
  intro calls
  induction calls with
  | nil => intro row _ cl hcl; cases hcl
  | cons c0 rest ih =>
      intro row hnd cl hcl m hm
      unfold callsRowU
      rw [List.foldl_cons]
      rcases List.mem_cons.mp hcl with hceq | hclr
      · subst hceq
        have hk0 : cl.1 ∉ rest.map Prod.fst := by
          rw [List.map_cons] at hnd
          exact (List.nodup_cons.mp hnd).1
        have hrestk : ∀ cl' ∈ rest, cl'.1 ≠ cl.1 := by
          intro cl' hcl' heq
          exact hk0 (heq ▸ List.mem_map_of_mem Prod.fst hcl')
        have h1 := colVal_callsRowU_other_kinds perf nid cl.1 m rest
          (aggRowU perf cl.1 cl.2 nid row) hrestk
        unfold callsRowU at h1
        rw [h1]
        exact colVal_aggRowU_written perf cl.1 nid m cl.2 row hm
      · have h1 := ih (aggRowU perf c0.1 c0.2 nid row)
          (by rw [List.map_cons] at hnd; exact (List.nodup_cons.mp hnd).2)
          cl hclr m hm
        unfold callsRowU at h1
        exact h1

theorem hasCol_callsRowU (perf : List PerfRow) (nid : Nat) (c : String) :
    ∀ (calls : List (AggKind × List String)) (row : StatsRow),
      hasCol (callsRowU perf calls nid row) c
        = (hasCol row c
            || calls.any (fun cl => cl.2.any (fun m => derivedName m cl.1 == c))) := by
  intro calls
  induction calls with
  | nil => intro row; simp [callsRowU]
  | cons c0 rest ih =>
      intro row
      unfold callsRowU
      rw [List.foldl_cons]
      have h1 := ih (aggRowU perf c0.1 c0.2 nid row)
      unfold callsRowU at h1
      rw [h1, hasCol_aggRowU, List.any_cons, ← Bool.or_assoc]

theorem applyCalls_statsframe (calls : List (AggKind × List String)) :
    ∀ th : AThicket,
      (applyCalls calls th).perf = th.perf ∧
      (applyCalls calls th).statsframe
        = th.statsframe.map
            (fun nr => (nr.1, callsRowU th.perf calls nr.1 nr.2)) := by
  induction calls with
  | nil =>
      intro th
      constructor
      · rfl
      · show th.statsframe = _
        conv_lhs => rw [← List.map_id th.statsframe]
        rfl
  | cons c0 rest ih =>
      intro th
      have h1 := ih (applyAgg c0.1 c0.2 th)
      constructor
      · exact h1.1
      · show (applyCalls rest (applyAgg c0.1 c0.2 th)).statsframe = _
        rw [h1.2]
        show ((applyAgg c0.1 c0.2 th).statsframe).map _
            = th.statsframe.map (fun nr => (nr.1, callsRowU th.perf (c0 :: rest) nr.1 nr.2))
        unfold applyAgg
        rw [List.map_map]
        rfl


theorem aggValue_mean_pair : aggValue AggKind.mean [10, 20] = StatVal.num 15 := by
  show StatVal.num (meanRat [10, 20]) = StatVal.num 15
  rw [meanRat_pair]

theorem aggValue_median_pair :
    aggValue AggKind.median [10, 20] = StatVal.num 15 := by
  show StatVal.num (percentileLinear 50 [10, 20]) = StatVal.num 15
  rw [percentile50_pair]

theorem aggValue_percentiles_pair :
    aggValue AggKind.percentiles [10, 20]
      = StatVal.plist [25/2, 15, 35/2] := by
  show StatVal.plist [percentileLinear 25 [10, 20],
      percentileLinear 50 [10, 20], percentileLinear 75 [10, 20]]
    = StatVal.plist [25/2, 15, 35/2]
  rw [percentile25_pair, percentile50_pair, percentile75_pair]

/-- A node with exactly two runs whose metric values are 10 and 20. -/
def cexPerf : List PerfRow :=
  [⟨0, 1, [("Total time (exc)", 10)]⟩, ⟨0, 2, [("Total time (exc)", 20)]⟩]

/-- The notebook's three aggregation calls on one metric column. -/
def cexCalls : List (AggKind × List String) :=
  [(AggKind.mean, ["Total time (exc)"]),
   (AggKind.median, ["Total time (exc)"]),
   (AggKind.percentiles, ["Total time (exc)"])]

theorem cex_values : valuesOf cexPerf 0 "Total time (exc)" = [10, 20] := by
  rfl

/-- C5: aggregation is additive across repeated calls — for any sequence of
aggregation calls of pairwise-distinct kinds (mean, median, percentiles in
any order, over any metric columns), the performance table is untouched, each
statistics row's column set becomes the union of its previous columns and the
columns produced by each call, and the value written by any call is still
present unchanged after all later calls (nothing is overwritten or
removed). -/
theorem aggregation_additive (th : AThicket)
    (calls : List (AggKind × List String))
    (hk : (calls.map Prod.fst).Nodup) :
    (applyCalls calls th).perf = th.perf ∧
    (applyCalls calls th).statsframe
        = th.statsframe.map
            (fun nr => (nr.1, callsRowU th.perf calls nr.1 nr.2)) ∧
    (∀ (nid : Nat) (row : StatsRow) (c : String),
      hasCol (callsRowU th.perf calls nid row) c
        = (hasCol row c
            || calls.any (fun cl => cl.2.any (fun m => derivedName m cl.1 == c)))) ∧
    (∀ (nid : Nat) (row : StatsRow), ∀ cl ∈ calls, ∀ m ∈ cl.2,
      colVal (callsRowU th.perf calls nid row) (derivedName m cl.1)
        = some (aggValue cl.1 (valuesOf th.perf nid m))) :=
  ⟨(applyCalls_statsframe calls th).1,
   (applyCalls_statsframe calls th).2,
   fun nid row c => hasCol_callsRowU th.perf nid c calls row,
   fun nid row cl hcl m hm =>
     colVal_callsRowU_written th.perf nid calls row hk cl hcl m hm⟩

/-- C7 (amended): every aggregation call writes under the deterministic
derived name `<metric>_<aggregation-kind>`, and a single percentiles call
appends, per metric, exactly one column `<metric>_percentiles` containing the
25th/50th/75th percentile values as one combined list — not three sibling
columns. -/
theorem agg_derived_names (perf : List PerfRow) (nid : Nat) (row : StatsRow)
    (ms : List String) (m : String) (hm : m ∈ ms) :
    derivedName m AggKind.mean = m ++ "_mean" ∧
    derivedName m AggKind.median = m ++ "_median" ∧
    derivedName m AggKind.percentiles = m ++ "_percentiles" ∧
    colVal (aggRowU perf AggKind.percentiles ms nid row) (m ++ "_percentiles")
      = some (StatVal.plist
          [percentileLinear 25 (valuesOf perf nid m),
           percentileLinear 50 (valuesOf perf nid m),
           percentileLinear 75 (valuesOf perf nid m)]) ∧
    (∀ c : String, hasCol (aggRowU perf AggKind.percentiles ms nid row) c
        = (hasCol row c || ms.any (fun m' => m' ++ "_percentiles" == c))) :=
  ⟨rfl, rfl, rfl,
   colVal_aggRowU_written perf AggKind.percentiles nid m ms row hm,
   fun c => hasCol_aggRowU perf AggKind.percentiles nid c ms row⟩

/-- C7 counterexample: on a concrete thicket, one percentiles call over one
metric adds exactly one statistics column, not three sibling per-percentile
columns. -/
theorem percentiles_single_column_cex :
    (aggRowU cexPerf AggKind.percentiles ["Total time (exc)"] 0 []).length = 1
      ∧ (1 : Nat) ≠ 3 :=
  ⟨rfl, by decide⟩

/-- C8 (amended): for a node whose metric values across runs are [10, 20],
mean writes 15 and median writes 15 under the metric's derived names, and the
percentiles call writes the single combined column `<metric>_percentiles`
holding [12.5, 15, 17.5] (the 25th/50th/75th percentiles under linear
interpolation). -/
theorem two_run_aggregates (perf : List PerfRow) (nid : Nat) (m : String)
    (row : StatsRow) (hv : valuesOf perf nid m = [10, 20]) :
    colVal (callsRowU perf [(AggKind.mean, [m]), (AggKind.median, [m]),
        (AggKind.percentiles, [m])] nid row) (m ++ "_mean")
      = some (StatVal.num 15) ∧
    colVal (callsRowU perf [(AggKind.mean, [m]), (AggKind.median, [m]),
        (AggKind.percentiles, [m])] nid row) (m ++ "_median")
      = some (StatVal.num 15) ∧
    colVal (callsRowU perf [(AggKind.mean, [m]), (AggKind.median, [m]),
        (AggKind.percentiles, [m])] nid row) (m ++ "_percentiles")
      = some (StatVal.plist [25/2, 15, 35/2]) := by
  have hnd : (([(AggKind.mean, [m]), (AggKind.median, [m]),
      (AggKind.percentiles, [m])]).map Prod.fst).Nodup := by
    simp
  refine ⟨?_, ?_, ?_⟩
  · have h := colVal_callsRowU_written perf nid
      [(AggKind.mean, [m]), (AggKind.median, [m]),
        (AggKind.percentiles, [m])] row hnd
      (AggKind.mean, [m]) (List.mem_cons_self _ _) m (List.mem_cons_self _ _)
    rw [hv, aggValue_mean_pair] at h
    exact h
  · have h := colVal_callsRowU_written perf nid
      [(AggKind.mean, [m]), (AggKind.median, [m]),
        (AggKind.percentiles, [m])] row hnd
      (AggKind.median, [m])
      (List.mem_cons_of_mem _ (List.mem_cons_self _ _)) m
      (List.mem_cons_self _ _)
    rw [hv, aggValue_median_pair] at h
    exact h
  · have h := colVal_callsRowU_written perf nid
      [(AggKind.mean, [m]), (AggKind.median, [m]),
        (AggKind.percentiles, [m])] row hnd
      (AggKind.percentiles, [m])
      (List.mem_cons_of_mem _ (List.mem_cons_of_mem _ (List.mem_cons_self _ _)))
      m (List.mem_cons_self _ _)
    rw [hv, aggValue_percentiles_pair] at h
    exact h

/-- C8 counterexample: on the concrete two-run node with values 10 and 20,
after the three aggregation calls there are no separate 25th/50th/75th
percentile columns; the percentile values live in the one combined
`_percentiles` column. -/
theorem two_run_percentiles_combined_cex :
    hasCol (callsRowU cexPerf cexCalls 0 []) "Total time (exc)_percentiles_25"
        = false ∧
    hasCol (callsRowU cexPerf cexCalls 0 []) "Total time (exc)_percentiles_50"
        = false ∧
    hasCol (callsRowU cexPerf cexCalls 0 []) "Total time (exc)_percentiles_75"
        = false ∧
    colVal (callsRowU cexPerf cexCalls 0 []) "Total time (exc)_percentiles"
      = some (StatVal.plist [25/2, 15, 35/2]) := by
  refine ⟨by decide, by decide, by decide, ?_⟩
  have h := colVal_callsRowU_written cexPerf 0 cexCalls [] (by decide)
    (AggKind.percentiles, ["Total time (exc)"]) (by decide)
    "Total time (exc)" (by decide)
  rw [cex_values, aggValue_percentiles_pair] at h
  exact h


/-- One metadata-table row: keyed by run, holding attribute name/value
pairs.  Modelled from the spec: "one row per run, storing run-level
descriptive attributes". -/
structure MetaRow where
  run : Nat
  attrs : List (String × String)
deriving DecidableEq

/-- The value of one metadata attribute of a run. -/
def attrVal (c : String) (r : MetaRow) : Option String :=
  (r.attrs.find? (fun a => a.1 == c)).map (fun a => a.2)

/-- The group key of a run: its tuple of values in the grouping columns. -/
def keyOf (cols : List String) (r : MetaRow) : List (Option String) :=
  cols.map (fun c => attrVal c r)

/-- Modelled from the spec: `Thicket.groupby` is not in the repository;
"given one or more metadata column names, partitions the set of runs by the
unique combination of values in those columns, and returns one independent
structure per partition". -/
def groupby (cols : List String) (md : List MetaRow) :
    List (List (Option String) × List MetaRow) :=
  ((md.map (fun r => keyOf cols r)).dedup).map
    (fun k => (k, md.filter (fun r => keyOf cols r == k)))

/-- C6: grouping partitions the runs exhaustively and disjointly — when the
grouping columns exist in the metadata table, every run belongs to exactly
one output partition, the partition is determined by the run's tuple of
values in the grouping columns, and no empty partition is produced. -/
theorem groupby_partitions (cols : List String) (md : List MetaRow)
    (hcols : ∀ r ∈ md, ∀ c ∈ cols, (attrVal c r).isSome = true) :
    (∀ r ∈ md, ∃! p, p ∈ groupby cols md ∧ r ∈ p.2) ∧
    (∀ p ∈ groupby cols md, ∀ r ∈ p.2, keyOf cols r = p.1 ∧ r ∈ md) ∧
    (∀ p ∈ groupby cols md, p.2 ≠ []) := by
  refine ⟨?_, ?_, ?_⟩
  · intro r hr
    refine ⟨(keyOf cols r,
      md.filter (fun r' => keyOf cols r' == keyOf cols r)), ⟨?_, ?_⟩, ?_⟩
    · unfold groupby
      exact List.mem_map.mpr
        ⟨keyOf cols r,
         List.mem_dedup.mpr (List.mem_map.mpr ⟨r, hr, rfl⟩), rfl⟩
    · exact List.mem_filter.mpr ⟨hr, by simp⟩
    · rintro q ⟨hq, hrq⟩
      unfold groupby at hq
      obtain ⟨k, hk, hqeq⟩ := List.mem_map.mp hq
      subst hqeq
      have : keyOf cols r == k := (List.mem_filter.mp hrq).2
      have hkr : keyOf cols r = k := by simpa using this
      rw [← hkr]
  · intro p hp r hrp
    unfold groupby at hp
    obtain ⟨k, hk, hpeq⟩ := List.mem_map.mp hp
    subst hpeq
    have h1 := List.mem_filter.mp hrp
    exact ⟨by simpa using h1.2, h1.1⟩
  · intro p hp
    unfold groupby at hp
    obtain ⟨k, hk, hpeq⟩ := List.mem_map.mp hp
    subst hpeq
    obtain ⟨r0, hr0, hkr0⟩ := List.mem_map.mp (List.mem_dedup.mp hk)
    exact List.ne_nil_of_mem
      (List.mem_filter.mpr ⟨hr0, by rw [hkr0]; simp⟩)

/-- An opaque visual artifact: the figure and axis pair the notebook
receives from `model_obj.display(RSS=False)`. -/
structure PlotArtifact where
  fig : Nat
  ax : Nat
deriving DecidableEq

/-- Modelled from the spec: the external Modeling collaborator returns "a
model object supporting evaluation and visualization"; the notebook calls
`model_obj.eval(600)` and `model_obj.display(RSS=False)`. -/
structure ExtrapModel where
  evalAt : Rat → Rat
  display : Bool → PlotArtifact

/-- The per-node (parameter, value) samples handed to the modeling
collaborator: the metadata parameter of each run paired with the node's
metric value in that run. -/
def samplesOf (paramOf : Nat → Option Rat) (perf : List PerfRow) (nid : Nat)
    (m : String) : List (Rat × Rat) :=
  (perf.filter (fun r => r.node == nid)).filterMap (fun r =>
    (paramOf r.run).bind (fun x =>
      (r.metrics.find? (fun c => c.1 == m)).map (fun c => (x, c.2))))

/-- Modelled from the spec: `Modeling.produce_models` is not in the
repository; model-fit aggregation "delegates curve construction to an
external modeling collaborator and stores an opaque model object per node"
under the metric's derived model column (`Total time_extrap-model` in the
notebook). -/
def produceModels (fit : List (Rat × Rat) → ExtrapModel)
    (paramOf : Nat → Option Rat) (ms : List String) (perf : List PerfRow)
    (nodes : List Nat) : List (Nat × List (String × ExtrapModel)) :=
  nodes.map (fun nid =>
    (nid, ms.map (fun m => (m ++ "_extrap-model",
      fit (samplesOf paramOf perf nid m)))))

/-- Look up the stored model object for a node and model column (the
notebook's `statsframe.dataframe.at[node, "Total time_extrap-model"]`). -/
def modelAt (frame : List (Nat × List (String × ExtrapModel))) (nid : Nat)
    (c : String) : Option ExtrapModel :=
  (frame.find? (fun nr => nr.1 == nid)).bind (fun nr =>
    (nr.2.find? (fun x => x.1 == c)).map (fun x => x.2))

theorem find?_nodesMap {α : Type} (g : Nat → α) (nid : Nat) :
    ∀ nodes : List Nat, nid ∈ nodes →
      (nodes.map (fun n => (n, g n))).find? (fun nr => nr.1 == nid)
        = some (nid, g nid) := by
  intro nodes
  induction nodes with
  | nil => intro h; cases h
  | cons n0 rest ih =>
      intro hmem
      rw [List.map_cons]
      by_cases h0 : n0 = nid
      · subst h0
        rw [@List.find?_cons_of_pos _ (fun nr => nr.1 == n0) (n0, g n0) _
          (by simp)]
      · rw [@List.find?_cons_of_neg _ (fun nr => nr.1 == nid) (n0, g n0) _
          (by simpa using h0)]
        rcases List.mem_cons.mp hmem with h | h
        · exact absurd h.symm h0
        · exact ih h

theorem find?_metricsMap (suffix : String) (g : String → ExtrapModel)
    (m : String) :
    ∀ ms : List String, m ∈ ms →
      (ms.map (fun m' => (m' ++ suffix, g m'))).find?
          (fun x => x.1 == m ++ suffix) = some (m ++ suffix, g m) := by
  intro ms
  induction ms with
  | nil => intro h; cases h
  | cons m0 rest ih =>
      intro hmem
      rw [List.map_cons]
      by_cases h0 : m0 = m
      · subst h0
        rw [@List.find?_cons_of_pos _ (fun x => x.1 == m0 ++ suffix)
          (m0 ++ suffix, g m0) _ (by simp)]
      · rw [@List.find?_cons_of_neg _ (fun x => x.1 == m ++ suffix)
          (m0 ++ suffix, g m0) _ (by
            simp only [beq_iff_eq]
            exact fun hctr => h0 (append_right_cancel_str m0 m suffix hctr))]
        rcases List.mem_cons.mp hmem with h | h
        · exact absurd h.symm h0
        · exact ih h

/-- C9: for every thicket on which model-fit aggregation is run, an opaque
model object is stored per node under the metric's derived model column, and
the stored object supports evaluation at an arbitrary parameter value and a
plot-producing display operation (it is exactly the collaborator's fitted
model for that node's samples). -/
theorem produce_models_stores (fit : List (Rat × Rat) → ExtrapModel)
    (paramOf : Nat → Option Rat) (ms : List String) (perf : List PerfRow)
    (nodes : List Nat) (nid : Nat) (hn : nid ∈ nodes) (m : String)
    (hm : m ∈ ms) :
    ∃ mo : ExtrapModel,
      modelAt (produceModels fit paramOf ms perf nodes) nid
          (m ++ "_extrap-model") = some mo ∧
      (∀ x : Rat, mo.evalAt x = (fit (samplesOf paramOf perf nid m)).evalAt x) ∧
      (∀ b : Bool,
        mo.display b = (fit (samplesOf paramOf perf nid m)).display b) := by
  refine ⟨fit (samplesOf paramOf perf nid m), ?_, fun x => rfl, fun b => rfl⟩
  unfold modelAt produceModels
  rw [find?_nodesMap (fun n => ms.map (fun m' => (m' ++ "_extrap-model",
    fit (samplesOf paramOf perf n m')))) nid nodes hn]
  rw [Option.some_bind]
  rw [find?_metricsMap "_extrap-model"
    (fun m' => fit (samplesOf paramOf perf nid m')) m ms hm]
  rfl


/-- Concrete thicket for the aggregation witness: the two-run node with an
empty statistics row. -/
def wTh : AThicket := ⟨cexPerf, [(0, [])]⟩

theorem aggregation_additive_witness :
    (cexCalls.map Prod.fst).Nodup ∧
    ((applyCalls cexCalls wTh).perf = wTh.perf ∧
    (applyCalls cexCalls wTh).statsframe
        = wTh.statsframe.map
            (fun nr => (nr.1, callsRowU wTh.perf cexCalls nr.1 nr.2)) ∧
    (∀ (nid : Nat) (row : StatsRow) (c : String),
      hasCol (callsRowU wTh.perf cexCalls nid row) c
        = (hasCol row c
            || cexCalls.any
                (fun cl => cl.2.any (fun m => derivedName m cl.1 == c)))) ∧
    (∀ (nid : Nat) (row : StatsRow), ∀ cl ∈ cexCalls, ∀ m ∈ cl.2,
      colVal (callsRowU wTh.perf cexCalls nid row) (derivedName m cl.1)
        = some (aggValue cl.1 (valuesOf wTh.perf nid m)))) :=
  ⟨by decide, aggregation_additive wTh cexCalls (by decide)⟩

theorem agg_derived_names_witness :
    "Total time (exc)" ∈ ["Total time (exc)"] ∧
    (derivedName "Total time (exc)" AggKind.mean
        = "Total time (exc)" ++ "_mean" ∧
    derivedName "Total time (exc)" AggKind.median
        = "Total time (exc)" ++ "_median" ∧
    derivedName "Total time (exc)" AggKind.percentiles
        = "Total time (exc)" ++ "_percentiles" ∧
    colVal (aggRowU cexPerf AggKind.percentiles ["Total time (exc)"] 0 [])
        ("Total time (exc)" ++ "_percentiles")
      = some (StatVal.plist
          [percentileLinear 25 (valuesOf cexPerf 0 "Total time (exc)"),
           percentileLinear 50 (valuesOf cexPerf 0 "Total time (exc)"),
           percentileLinear 75 (valuesOf cexPerf 0 "Total time (exc)")]) ∧
    (∀ c : String,
      hasCol (aggRowU cexPerf AggKind.percentiles ["Total time (exc)"] 0 []) c
        = (hasCol ([] : StatsRow) c
            || ["Total time (exc)"].any
                (fun m' => m' ++ "_percentiles" == c)))) :=
  ⟨by decide,
   agg_derived_names cexPerf 0 [] ["Total time (exc)"] "Total time (exc)"
     (by decide)⟩

theorem two_run_aggregates_witness :
    valuesOf cexPerf 0 "Total time (exc)" = [10, 20] ∧
    (colVal (callsRowU cexPerf
        [(AggKind.mean, ["Total time (exc)"]),
         (AggKind.median, ["Total time (exc)"]),
         (AggKind.percentiles, ["Total time (exc)"])] 0 [])
        ("Total time (exc)" ++ "_mean") = some (StatVal.num 15) ∧
    colVal (callsRowU cexPerf
        [(AggKind.mean, ["Total time (exc)"]),
         (AggKind.median, ["Total time (exc)"]),
         (AggKind.percentiles, ["Total time (exc)"])] 0 [])
        ("Total time (exc)" ++ "_median") = some (StatVal.num 15) ∧
    colVal (callsRowU cexPerf
        [(AggKind.mean, ["Total time (exc)"]),
         (AggKind.median, ["Total time (exc)"]),
         (AggKind.percentiles, ["Total time (exc)"])] 0 [])
        ("Total time (exc)" ++ "_percentiles")
      = some (StatVal.plist [25/2, 15, 35/2])) :=
  ⟨cex_values,
   two_run_aggregates cexPerf 0 "Total time (exc)" [] cex_values⟩

/-- Concrete metadata table for the grouping witness: three runs over two
distinct (launchdate, block size) combinations. -/
def wMd : List MetaRow :=
  [⟨1, [("launchdate", "d1"), ("gpu_targets_block_sizes", "128")]⟩,
   ⟨2, [("launchdate", "d1"), ("gpu_targets_block_sizes", "256")]⟩,
   ⟨3, [("launchdate", "d1"), ("gpu_targets_block_sizes", "128")]⟩]

/-- The grouping columns used in the notebook. -/
def wCols : List String := ["launchdate", "gpu_targets_block_sizes"]

theorem groupby_partitions_witness :
    (∀ r ∈ wMd, ∀ c ∈ wCols, (attrVal c r).isSome = true) ∧
    ((∀ r ∈ wMd, ∃! p, p ∈ groupby wCols wMd ∧ r ∈ p.2) ∧
    (∀ p ∈ groupby wCols wMd, ∀ r ∈ p.2, keyOf wCols r = p.1 ∧ r ∈ wMd) ∧
    (∀ p ∈ groupby wCols wMd, p.2 ≠ [])) :=
  ⟨by decide, groupby_partitions wCols wMd (by decide)⟩

/-- A concrete modeling collaborator for the witness. -/
def wFit : List (Rat × Rat) → ExtrapModel :=
  fun samples => ⟨fun x => x + (samples.length : Rat),
    fun b => ⟨cond b 1 0, 0⟩⟩

theorem produce_models_stores_witness :
    (0 : Nat) ∈ [0] ∧ "Total time" ∈ ["Total time"] ∧
    ∃ mo : ExtrapModel,
      modelAt (produceModels wFit (fun r => some ((r : Nat) : Rat))
          ["Total time"] cexPerf [0]) 0 ("Total time" ++ "_extrap-model")
        = some mo ∧
      (∀ x : Rat, mo.evalAt x
          = (wFit (samplesOf (fun r => some ((r : Nat) : Rat)) cexPerf 0
              "Total time")).evalAt x) ∧
      (∀ b : Bool, mo.display b
          = (wFit (samplesOf (fun r => some ((r : Nat) : Rat)) cexPerf 0
              "Total time")).display b) :=
  ⟨by decide, by decide,
   produce_models_stores wFit (fun r => some ((r : Nat) : Rat)) ["Total time"]
     cexPerf [0] 0 (by decide) "Total time" (by decide)⟩

end ThicketModel
